import Mathlib

/-!
Shallow embedding of the MCMC auto-stopping sampler
(`Final_construct-Copy1-checkpoint.ipynb`).  Real-valued quantities are
modelled over `ℚ` (with `q / 0 = 0`), and the square root used by the
potential-scale-reduction factor is taken in `ℝ` at the statement level.
Ensembles are functions `psi : ℕ → ℕ → ℚ` sending a time index and a chain
index to the recorded coordinate value, together with the shape `n` (time
steps per chain) and `m` (number of chains), matching the array
`psi[d][i, j]` of the source for one fixed dimension `d`.
-/

namespace MCMCStop

/-- Chain mean: `psi_dot_j_bar = (1/n) * np.sum(psi[d], axis=0)`. -/
def psi_dot_j_bar (psi : ℕ → ℕ → ℚ) (n : ℕ) (j : ℕ) : ℚ :=
  (1 / (n : ℚ)) * ∑ i ∈ Finset.range n, psi i j

/-- Grand mean: `psi_dot_dot_bar = (1/m) * np.sum(psi_dot_j_bar)`. -/
def psi_dot_dot_bar (psi : ℕ → ℕ → ℚ) (n m : ℕ) : ℚ :=
  (1 / (m : ℚ)) * ∑ j ∈ Finset.range m, psi_dot_j_bar psi n j

/-- Between-chain variance: `B = (n/(m-1)) * np.sum(B_term**2)`. -/
def B (psi : ℕ → ℕ → ℚ) (n m : ℕ) : ℚ :=
  ((n : ℚ) / ((m : ℚ) - 1)) *
    ∑ j ∈ Finset.range m, (psi_dot_j_bar psi n j - psi_dot_dot_bar psi n m) ^ 2

/-- Per-chain unbiased variance: `s_j_square = (1/(n-1)) * np.sum(s_j_square_term)`. -/
def s_j_square (psi : ℕ → ℕ → ℚ) (n : ℕ) (j : ℕ) : ℚ :=
  (1 / ((n : ℚ) - 1)) * ∑ i ∈ Finset.range n, (psi i j - psi_dot_j_bar psi n j) ^ 2

/-- Within-chain variance: `W = (1/m) * np.sum(s_j_square)`. -/
def W (psi : ℕ → ℕ → ℚ) (n m : ℕ) : ℚ :=
  (1 / (m : ℚ)) * ∑ j ∈ Finset.range m, s_j_square psi n j

/-- Pooled variance estimator: `var_dagger = ((n-1)/n)*W + (1/n)*B`. -/
def var_dagger (psi : ℕ → ℕ → ℚ) (n m : ℕ) : ℚ :=
  (((n : ℚ) - 1) / (n : ℚ)) * W psi n m + (1 / (n : ℚ)) * B psi n m

/-- Denominator of the variogram at lag `t`: the factor `m*(n-t)` dividing the
sum of squared differences.  Kept as a separate definition because the source
divides by it unconditionally (a zero value raises `ZeroDivisionError`). -/
def Vdenom (n m t : ℕ) : ℚ :=
  (m : ℚ) * ((n : ℚ) - (t : ℚ))

/-- Variogram: `V(t) = (1/(m*(n-t))) * Σ_j Σ_{i=t}^{n-1} (psi[i,j] - psi[i-t,j])^2`.
The source slices `psi[d][t:]` against `psi[d][0:n-t]`, i.e. pairs
`psi (t+i) j` with `psi i j` for `i < n - t`. -/
def V (psi : ℕ → ℕ → ℚ) (n m : ℕ) (t : ℕ) : ℚ :=
  (1 / Vdenom n m t) *
    ∑ j ∈ Finset.range m, ∑ i ∈ Finset.range (n - t), (psi (t + i) j - psi i j) ^ 2

/-- Autocorrelation: `rho(t) = 1 - V(t)/(2*var_dagger)`. -/
def rho (psi : ℕ → ℕ → ℚ) (n m : ℕ) (t : ℕ) : ℚ :=
  1 - V psi n m t / (2 * var_dagger psi n m)

/-- Condition checked by the cutoff-search loop at index `i`:
`check = rho(i) + rho(i+1) < 0`. -/
def cutoffHit (psi : ℕ → ℕ → ℚ) (n m : ℕ) (i : ℕ) : Bool :=
  decide (rho psi n m i + rho psi n m (i + 1) < 0)

/-- Result of the cutoff search `for i in range(int(n)): ... if check < 0: break`:
the first `i < n` whose check is negative, if any.  Only the `some` outcome
corresponds to a completed search of the source: on the no-hit path the
source does not return cleanly but raises at `i = n-1` (zero variogram
divisor at lag `n`); `cutoffE` below models that error path. -/
def cutoff (psi : ℕ → ℕ → ℚ) (n m : ℕ) : Option ℕ :=
  (List.range n).find? (cutoffHit psi n m)

/-- Python-faithful outcome of computing `check = rho(i) + rho(i+1)` at loop
index `i`: the two `rho` evaluations divide by the variogram denominator
`m*(n-t)` for `t = i` and `t = i+1` and by `2*var_dagger`; if any of these is
zero the source raises `ZeroDivisionError` (`none`), otherwise the value of
the test `check < 0` is returned. -/
def checkE (psi : ℕ → ℕ → ℚ) (n m i : ℕ) : Option Bool :=
  if Vdenom n m i = 0 ∨ Vdenom n m (i + 1) = 0 ∨ var_dagger psi n m = 0 then none
  else some (cutoffHit psi n m i)

/-- Exception-aware cutoff-search loop over a worklist of loop indices:
`none` is an uncaught `ZeroDivisionError`, `some (some i)` a cutoff found at
`i` (the `break`), `some none` a loop that ran out of indices with no hit. -/
def searchLoopE (psi : ℕ → ℕ → ℚ) (n m : ℕ) : List ℕ → Option (Option ℕ)
  | [] => some none
  | i :: rest =>
    match checkE psi n m i with
    | none => none
    | some true => some (some i)
    | some false => searchLoopE psi n m rest

/-- Exception-aware result of the cutoff search `for i in range(int(n))` of
the source, including its division-by-zero error path. -/
def cutoffE (psi : ℕ → ℕ → ℚ) (n m : ℕ) : Option (Option ℕ) :=
  searchLoopE psi n m (List.range n)

/-- Loop indices actually visited by the cutoff search on a given worklist:
every index up to and including the first hit (the `break`). -/
def visitLoop (psi : ℕ → ℕ → ℚ) (n m : ℕ) : List ℕ → List ℕ
  | [] => []
  | i :: rest => if cutoffHit psi n m i then [i] else i :: visitLoop psi n m rest

/-- Loop indices visited by the cutoff search over `range(int(n))`. -/
def searchVisited (psi : ℕ → ℕ → ℚ) (n m : ℕ) : List ℕ :=
  visitLoop psi n m (List.range n)

/-- Lags at which `rho` (hence `V`) is evaluated during the cutoff search:
each visited loop index `i` evaluates `rho i` and `rho (i+1)`. -/
def lagsEvaluated (psi : ℕ → ℕ → ℚ) (n m : ℕ) : List ℕ :=
  (searchVisited psi n m).flatMap (fun i => [i, i + 1])

/-- Effective sample size for cutoff `T`:
`n_effective[d] = (m*n)/(1 + 2.0*np.sum(rho_array[1:T]))`, the slice
`rho_array[1:T]` covering lags `1 ≤ t < T`. -/
def n_effective (psi : ℕ → ℕ → ℚ) (n m : ℕ) (T : ℕ) : ℚ :=
  ((m : ℚ) * (n : ℚ)) / (1 + 2 * ∑ t ∈ Finset.Ico 1 T, rho psi n m t)

/-- One Metropolis advance: draw `x_new = stepper(x_current)` and accept iff a
uniform draw `u` satisfies `u < f(x_new)/f(x_current)`; the Bool records the
acceptance written into `acceptances[k]`. -/
def advance {α : Type} (f : α → ℚ) (stepper : α → α) (u : ℚ) (x : α) : α × Bool :=
  let cand := stepper x
  if u < f cand / f x then (cand, true) else (x, false)

/-- States written by the inner sampling loop
`for k in range(mcmc_step_0, mcmc_step)` for one chain: `cnt` further states
starting from `x`, the uniform stream `us` indexed by the global step counter
`k`.  Entry `r` of the result is `x_recorded[k0 + r]` for that chain. -/
def blockStates {α : Type} (f : α → ℚ) (stepper : α → α) (us : ℕ → ℚ) :
    α → ℕ → ℕ → List α
  | _, _, 0 => []
  | x, k, cnt + 1 =>
    let x1 := (advance f stepper (us k) x).1
    x1 :: blockStates f stepper us x1 (k + 1) cnt

/-- Recorded trajectory of one chain after `z` outer iterations of block size
`step`.  Each outer iteration copies the old `x_recorded` into a larger
template and then runs the sampling loop from `x_current = x_start[i]` for the
new indices `mcmc_step_0 ≤ k < mcmc_step`. -/
def recordAfter {α : Type} (f : α → ℚ) (stepper : α → α) (us : ℕ → ℚ)
    (seed : α) (step : ℕ) : ℕ → List α
  | 0 => []
  | z + 1 =>
    recordAfter f stepper us seed step z ++ blockStates f stepper us seed (step * z) step

/-- Property claimed of the final Record: every state of index `k ≥ 1` is one
Metropolis advance from the state at index `k - 1` of the same chain. -/
def recordFollowsAdvance {α : Type} (f : α → ℚ) (stepper : α → α) (us : ℕ → ℚ)
    (x0 : α) (rec : List α) : Prop :=
  ∀ k < rec.length, 0 < k →
    rec.getD k x0 = (advance f stepper (us k) (rec.getD (k - 1) x0)).1

/-- Outer loop guard of `run_mcmc`, with Python operator precedence:
`any(n_effective < n_eff_min_list) or (any(R > R_max_list) and
any([i == blank for i in choice[1:]]))`.  A `choice` cell holding the blank
string is `none`; a stored cutoff lag is `some t`. -/
def whileCond (nEff : List ℚ) (nEffMin : ℚ) (R : List ℚ) (Rmax : ℚ)
    (choice : List (Option ℕ)) : Bool :=
  (nEff.any fun x => decide (x < nEffMin)) ||
    ((R.any fun x => decide (Rmax < x)) && ((choice.drop 1).any fun c => c.isNone))

/-- The global cutoff-tracking container as initialised in the source:
`choice = [blank]`, a one-element list, regardless of the dimension count. -/
def choice0 : List (Option ℕ) := [none]

/-- Active dimension count of the source configuration: `dimension
= len(x_start[0]) = 2`. -/
def dimension : ℕ := 2

/-- Python list assignment `l[d] = v` succeeds exactly when `d` is in range. -/
def listWriteOK {α : Type} (l : List α) (d : ℕ) : Prop := d < l.length

/-- Warm-up discard and chain splitting: with per-chain record length `L`,
ensemble chain `j < m0` reads `x_recorded[L/2 + i]` of seed chain `j`, and
ensemble chain `m0 ≤ j < 2*m0` reads `x_recorded[L/2 + L/4 + i]` of seed chain
`j - m0` (the two halves of `x_warmup` stacked in `x_result`). -/
def splitPsi (records : ℕ → List ℚ) (L m0 : ℕ) (i j : ℕ) : ℚ :=
  if j < m0 then (records j).getD (L / 2 + i) 0
  else (records (j - m0)).getD (L / 2 + L / 4 + i) 0

/-- Minimum of a nonempty array: `np.amin` (0 on the empty list). -/
def amin : List ℚ → ℚ
  | [] => 0
  | x :: xs => xs.foldl min x

/-- Thinning interval: `samples_skip = np.ceil(m * n / n_effective_final)`,
used as an integer stride. -/
def samples_skip (n m : ℕ) (nEff : List ℚ) : ℕ :=
  (Int.ceil (((m : ℚ) * (n : ℚ)) / amin nEff)).toNat

/-- Length of the Python extended slice `a[0::s]` on an array of length `n`:
`ceil(n / s)` computed as `(n + s - 1) / s`. -/
def pySliceLen (n s : ℕ) : ℕ := (n + s - 1) / s

/-- Row indices selected by the Python extended slice `x_result[0::s]`:
`0, s, 2*s, …`, one per slice position. -/
def pyStride (n s : ℕ) : List ℕ := (List.range (pySliceLen n s)).map (· * s)

/-- Row count of the preallocated `samples_final`: `n/s` when `int(n/s) ==
n/s`, else `int(np.ceil(n/s))`. -/
def samples_final_len (n s : ℕ) : ℕ := if s ∣ n then n / s else pySliceLen n s

/-- Thinned states of ensemble chain `j`: column `j` of
`samples_final = x_result[0::s]`. -/
def samples_final {α : Type} (xres : ℕ → ℕ → α) (n s j : ℕ) : List α :=
  (pyStride n s).map fun r => xres r j

/-- Flat independent-sample array: the loop
`samples[i*cnt:(i+1)*cnt] = samples_final[:,:,i]` concatenates the thinned
states of the chains in chain order. -/
def samples {α : Type} (xres : ℕ → ℕ → α) (n s m : ℕ) : List α :=
  (List.range m).flatMap fun j => samples_final xres n s j

/-- Modelled from the spec: the indices the Extraction step is required to
take from each chain, "states at indices `0, s, 2s, …` (bounded by `n`)" —
every multiple of `s` strictly below `n`. -/
def specThinIndices (n s : ℕ) : List ℕ :=
  (List.range n).filter fun i => i % s == 0

/-- Modelled from the spec: the flat IndependentSampleSet obtained by taking
the spec indices from each of the `m` chains and concatenating in chain
order. -/
def specSampleSet {α : Type} (xres : ℕ → ℕ → α) (n s m : ℕ) : List α :=
  (List.range m).flatMap fun j => (specThinIndices n s).map fun r => xres r j

/-! Concrete instances used by counterexamples and witnesses. -/

/-- Ensemble with `n = 5`, `m = 2`: chains `[2, -2, -1, -2, 1]` and
`[1, 0, -2, -1, -2]`. -/
def psi7 : ℕ → ℕ → ℚ
  | 0, 0 => 2
  | 1, 0 => -2
  | 2, 0 => -1
  | 3, 0 => -2
  | 4, 0 => 1
  | 0, 1 => 1
  | 1, 1 => 0
  | 2, 1 => -2
  | 3, 1 => -1
  | 4, 1 => -2
  | _, _ => 0

/-- Ensemble with `n = 2`, `m = 2`: both chains equal to `[0, 2]`, so the
between-chain variance vanishes while the within-chain variance does not. -/
def psi62 (i : ℕ) (_ : ℕ) : ℚ := if i = 0 then 0 else 2

/-- Degenerate ensemble: every chain constant at `3` (a proposal that never
moves), so the within-chain variance is `0`. -/
def psiDeg (_ : ℕ) (_ : ℕ) : ℚ := 3

/-- Period-2 oscillating ensemble with `n = 4`, `m = 2`: both chains
`[1, -1, 1, -1]`; no check `rho(t) + rho(t+1)` in `[0, n-1)` is negative. -/
def psi10 (i : ℕ) (_ : ℕ) : ℚ := if i % 2 = 0 then 1 else -1

/-- Target density used in concrete runs: the constant `1`. -/
def cf {α : Type} : α → ℚ := fun _ => 1

/-- Proposal used by the C2 instance: a deterministic drift by `+1`. -/
def c2stepper : ℚ → ℚ := fun x => x + 1

/-- Uniform stream used by the C2 instance: every draw is `0`, so every
proposal is accepted. -/
def c2us : ℕ → ℚ := fun _ => 0

/-- Seed states of the source: `x_start`, five 2-vectors. -/
def x_start : ℕ → ℚ × ℚ
  | 0 => (0, 0)
  | 1 => (-(9 / 10), 9 / 10)
  | 2 => (-(9 / 10), -(9 / 10))
  | 3 => (9 / 10, -(9 / 10))
  | _ => (9 / 10, 9 / 10)

/-- Coordinate projection of a 2-vector state. -/
def coord (d : ℕ) (x : ℚ × ℚ) : ℚ := if d = 0 then x.1 else x.2

/-- Uniform stream of the non-terminating run (any fixed value works). -/
def c3us : ℕ → ℚ := fun _ => 1 / 2

/-- Per-dimension records of all five chains after `z` outer iterations of
the run with the identity proposal (`stepper = id`) and block size `400`. -/
def c3records (z d j : ℕ) : List ℚ :=
  (recordAfter cf id c3us (x_start j) 400 z).map (coord d)

/-- Dimension-`d` ensemble derived by warm-up and splitting at the end of
outer iteration `z` (per-chain length `400 * (z + 1)`). -/
def c3psi (z d : ℕ) : ℕ → ℕ → ℚ :=
  splitPsi (c3records (z + 1) d) (400 * (z + 1)) 5

/-! Theorems. -/

/-- C1: the claim requires the loop to exit into `Converged` only when every
dimension has a cutoff lag, `R_d ≤ R_max` and `ESS_d ≥ ess_min`.  In the
source the `R` test is conjoined with `any([i == blank for i in choice[1:]])`,
which is `any([]) = False` for the one-element global `choice`, so the guard
degenerates to the `n_effective` test alone: here the guard evaluates to
`false` (loop exit) although every `R_d` exceeds `R_max = 11/10` and no
dimension has a cutoff lag. -/
theorem C1_decision_ignores_R_and_cutoff :
    whileCond [200, 200] 120 [5, 5] (11 / 10) choice0 = false ∧
    (([5, 5] : List ℚ).any fun x => decide ((11 : ℚ) / 10 < x)) = true ∧
    (choice0.any fun c => c.isNone) = true := by
  refine ⟨?_, ?_, ?_⟩ <;> norm_num [whileCond, choice0]

/-- C4: the per-dimension cutoff container is `choice = [blank]`, of length
`1`, while the active dimension count is `2`; the store `choice[d] = i*1.0`
is out of range for dimension `d = 1`. -/
theorem C4_choice_container_undersized :
    listWriteOK choice0 0 ∧ ¬ listWriteOK choice0 1 ∧ choice0.length < dimension := by
  refine ⟨?_, ?_, ?_⟩ <;> simp [listWriteOK, choice0, dimension]

/-- C5: on an ensemble whose chains never move, `W_d = 0`, and the source
still computes `R = np.sqrt(var_dagger/W)` with no guard: the embedded
computation returns a value (in exact arithmetic `sqrt (0/0) = 0`; in the
floating-point source, `nan` with a warning), not a DegenerateChain error. -/
theorem C5_degenerate_chain_not_rejected :
    W psiDeg 4 2 = 0 ∧ var_dagger psiDeg 4 2 = 0 ∧
    Real.sqrt ((var_dagger psiDeg 4 2 : ℝ) / (W psiDeg 4 2 : ℝ)) = 0 := by
  have hW : W psiDeg 4 2 = 0 := by
    norm_num [W, s_j_square, psi_dot_j_bar, psiDeg, Finset.sum_range_succ]
  have hB : B psiDeg 4 2 = 0 := by
    norm_num [B, psi_dot_j_bar, psi_dot_dot_bar, psiDeg, Finset.sum_range_succ]
  have hv : var_dagger psiDeg 4 2 = 0 := by
    rw [var_dagger, hW, hB]; ring
  refine ⟨hW, hv, ?_⟩
  rw [hW, hv]
  norm_num

/-- C9: a single Metropolis advance draws `candidate = stepper x`, moves to
the candidate and records an acceptance exactly when the uniform draw `u` is
strictly below `f candidate / f x`, and otherwise stays at `x` with no
acceptance recorded. -/
theorem C9_advance_semantics {α : Type} (f : α → ℚ) (stepper : α → α) (u : ℚ) (x : α) :
    (u < f (stepper x) / f x → advance f stepper u x = (stepper x, true)) ∧
    (¬ u < f (stepper x) / f x → advance f stepper u x = (x, false)) := by
  constructor <;> intro h <;> simp [advance, h]

/-- Witness for C9 at `f = 1`, `stepper = (+1)`, `u = 0`, `x = 2`: the ratio
is `1`, the draw `0` is below it, and the step accepts the candidate `3`. -/
theorem C9_witness :
    ((0 : ℚ) < cf (c2stepper 2) / cf 2) ∧ advance cf c2stepper 0 2 = (c2stepper 2, true) :=
  ⟨by norm_num [cf], (C9_advance_semantics cf c2stepper 0 2).1 (by norm_num [cf])⟩

lemma psi62_W : W psi62 2 2 = 2 := by
  norm_num [W, s_j_square, psi_dot_j_bar, psi62, Finset.sum_range_succ]

lemma psi62_var_dagger : var_dagger psi62 2 2 = 1 := by
  norm_num [var_dagger, W, B, s_j_square, psi_dot_j_bar, psi_dot_dot_bar, psi62,
    Finset.sum_range_succ]

/-- C6 counterexample: on the ensemble whose two chains are both `[0, 2]`
(`n = m = 2`), the within-chain variance is `W = 2 > 0` and the between-chain
variance vanishes, so `R = sqrt(var_dagger / W) = sqrt(1/2) < 1`: the claimed
bound `R_d ≥ 1` fails. -/
theorem C6_counterexample :
    0 < W psi62 2 2 ∧
    Real.sqrt ((var_dagger psi62 2 2 : ℝ) / (W psi62 2 2 : ℝ)) < 1 := by
  refine ⟨by rw [psi62_W]; norm_num, ?_⟩
  rw [psi62_W, psi62_var_dagger]
  have h1 : ((1 : ℚ) : ℝ) / ((2 : ℚ) : ℝ) = 1 / 2 := by norm_num
  rw [h1]
  have h2 := Real.sqrt_lt_sqrt (by norm_num : (0 : ℝ) ≤ 1 / 2) (by norm_num : (1 : ℝ) / 2 < 1)
  simpa [Real.sqrt_one] using h2

/-- C6 amended: for every ensemble with `m ≥ 2` chains, `n ≥ 1` and
`W_d > 0`, the pooled variance satisfies `var_dagger ≥ ((n-1)/n)·W`, hence
`R_d = sqrt(var_dagger/W) ≥ sqrt((n-1)/n)`; the bound `R_d ≥ 1` holds only
when `B_d ≥ W_d` and fails in general. -/
theorem C6_Rhat_lower_bound (psi : ℕ → ℕ → ℚ) (n m : ℕ) (hm : 2 ≤ m) (hn : 0 < n)
    (hW : 0 < W psi n m) :
    Real.sqrt (((n : ℝ) - 1) / (n : ℝ)) ≤
      Real.sqrt ((var_dagger psi n m : ℝ) / (W psi n m : ℝ)) := by
  apply Real.sqrt_le_sqrt
  have hm' : (2 : ℚ) ≤ (m : ℚ) := by exact_mod_cast hm
  have hn' : (1 : ℚ) ≤ (n : ℚ) := by exact_mod_cast hn
  have hB : 0 ≤ B psi n m := by
    rw [B]
    apply mul_nonneg
    · apply div_nonneg (by positivity)
      linarith
    · exact Finset.sum_nonneg fun j _ => sq_nonneg _
  have hBn : 0 ≤ (1 / (n : ℚ)) * B psi n m := by
    apply mul_nonneg _ hB
    positivity
  have hkey : ((n : ℚ) - 1) / (n : ℚ) ≤ var_dagger psi n m / W psi n m := by
    rw [le_div_iff₀ hW, var_dagger]
    nlinarith [hW.le]
  have hcast := (Rat.cast_le (K := ℝ)).mpr hkey
  push_cast at hcast
  convert hcast using 2

/-- Witness for C6 amended at the `psi62` ensemble (`n = m = 2`, `W = 2`):
`sqrt((2-1)/2) ≤ sqrt(var_dagger/W)`. -/
theorem C6_witness :
    (2 ≤ 2 ∧ 0 < 2 ∧ 0 < W psi62 2 2) ∧
    Real.sqrt (((2 : ℝ) - 1) / (2 : ℝ)) ≤
      Real.sqrt ((var_dagger psi62 2 2 : ℝ) / (W psi62 2 2 : ℝ)) :=
  ⟨⟨le_refl 2, by norm_num, by rw [psi62_W]; norm_num⟩,
    C6_Rhat_lower_bound psi62 2 2 (le_refl 2) (by norm_num) (by rw [psi62_W]; norm_num)⟩

lemma psi7_var_dagger : var_dagger psi7 5 2 = 52 / 25 := by
  norm_num [var_dagger, W, B, s_j_square, psi_dot_j_bar, psi_dot_dot_bar, psi7,
    Finset.sum_range_succ]

lemma rho7_0 : rho psi7 5 2 0 = 1 := by
  norm_num [rho, V, Vdenom, psi7_var_dagger, Finset.sum_range_succ, psi7]

lemma rho7_1 : rho psi7 5 2 1 = -9 / 416 := by
  norm_num [rho, V, Vdenom, psi7_var_dagger, Finset.sum_range_succ, psi7]

lemma rho7_2 : rho psi7 5 2 2 = 49 / 624 := by
  norm_num [rho, V, Vdenom, psi7_var_dagger, Finset.sum_range_succ, psi7]

lemma rho7_3 : rho psi7 5 2 3 = -409 / 416 := by
  norm_num [rho, V, Vdenom, psi7_var_dagger, Finset.sum_range_succ, psi7]

lemma hit7_0 : cutoffHit psi7 5 2 0 = false := by
  norm_num [cutoffHit, rho7_0, rho7_1, decide_eq_false_iff_not]

lemma hit7_1 : cutoffHit psi7 5 2 1 = false := by
  norm_num [cutoffHit, rho7_1, rho7_2, decide_eq_false_iff_not]

lemma hit7_2 : cutoffHit psi7 5 2 2 = true := by
  norm_num [cutoffHit, rho7_2, rho7_3, decide_eq_true_eq]

/-- C7 counterexample: on the `psi7` ensemble (`n = 5`, `m = 2`) the cutoff
search finds `T = 2`, the truncated autocorrelation sum `rho(1) = -9/416` is
negative, and `ESS = (m·n)/(1 + 2·rho(1)) = 2080/199 > 10 = m·n`: the claimed
bound `ESS_d ≤ m·n` fails. -/
theorem C7_counterexample :
    cutoff psi7 5 2 = some 2 ∧ (2 : ℚ) * 5 < n_effective psi7 5 2 2 := by
  constructor
  · have hr : List.range 5 = [0, 1, 2, 3, 4] := by decide
    rw [cutoff, hr]
    simp [List.find?, hit7_0, hit7_1, hit7_2]
  · have hs : ∑ t ∈ Finset.Ico 1 2, rho psi7 5 2 t = -9 / 416 := by
      rw [Finset.sum_Ico_eq_sum_range]
      norm_num [rho7_1]
    rw [n_effective, hs]
    norm_num

/-- C7 amended: `ESS_d = m·n` exactly in the empty-sum case `T_d ≤ 1`, and
`ESS_d ≤ m·n` whenever the truncated autocorrelation sum
`Σ_{t=1}^{T-1} rho(t)` is nonnegative; the unconditional bound fails when
that sum is negative. -/
theorem C7_ess_bound (psi : ℕ → ℕ → ℚ) (n m T : ℕ) :
    (T ≤ 1 → n_effective psi n m T = (m : ℚ) * (n : ℚ)) ∧
    (0 ≤ ∑ t ∈ Finset.Ico 1 T, rho psi n m t →
      n_effective psi n m T ≤ (m : ℚ) * (n : ℚ)) := by
  constructor
  · intro hT
    have he : Finset.Ico 1 T = ∅ := Finset.Ico_eq_empty (by omega)
    simp [n_effective, he]
  · intro hS
    have h1 : (1 : ℚ) ≤ 1 + 2 * ∑ t ∈ Finset.Ico 1 T, rho psi n m t := by linarith
    have h0 : (0 : ℚ) ≤ (m : ℚ) * (n : ℚ) := by positivity
    exact div_le_self h0 h1

/-- Witness for C7 amended: at `T = 1` the sum is empty and
`ESS = m·n = 4` exactly on the `psi62` ensemble. -/
theorem C7_witness : n_effective psi62 2 2 1 = (2 : ℚ) * (2 : ℚ) :=
  (C7_ess_bound psi62 2 2 1).1 (le_refl 1)

lemma psi10_var_dagger : var_dagger psi10 4 2 = 1 := by
  norm_num [var_dagger, W, B, s_j_square, psi_dot_j_bar, psi_dot_dot_bar, psi10,
    Finset.sum_range_succ]

lemma rho10_0 : rho psi10 4 2 0 = 1 := by
  norm_num [rho, V, Vdenom, psi10_var_dagger, Finset.sum_range_succ, psi10]

lemma rho10_1 : rho psi10 4 2 1 = -1 := by
  norm_num [rho, V, Vdenom, psi10_var_dagger, Finset.sum_range_succ, psi10]

lemma rho10_2 : rho psi10 4 2 2 = 1 := by
  norm_num [rho, V, Vdenom, psi10_var_dagger, Finset.sum_range_succ, psi10]

lemma rho10_3 : rho psi10 4 2 3 = -1 := by
  norm_num [rho, V, Vdenom, psi10_var_dagger, Finset.sum_range_succ, psi10]

lemma hit10_0 : cutoffHit psi10 4 2 0 = false := by
  norm_num [cutoffHit, rho10_0, rho10_1, decide_eq_false_iff_not]

lemma hit10_1 : cutoffHit psi10 4 2 1 = false := by
  norm_num [cutoffHit, rho10_1, rho10_2, decide_eq_false_iff_not]

lemma hit10_2 : cutoffHit psi10 4 2 2 = false := by
  norm_num [cutoffHit, rho10_2, rho10_3, decide_eq_false_iff_not]

lemma visitLoop_append (psi : ℕ → ℕ → ℚ) (n m : ℕ) (l₁ l₂ : List ℕ)
    (h : ∀ i ∈ l₁, cutoffHit psi n m i = false) :
    visitLoop psi n m (l₁ ++ l₂) = l₁ ++ visitLoop psi n m l₂ := by
  induction l₁ with
  | nil => simp
  | cons a l ih =>
    have ha : cutoffHit psi n m a = false := h a (by simp)
    simp [visitLoop, ha, ih fun i hi => h i (by simp [hi])]

/-- C10: when no check `rho(t) + rho(t+1)` with `t ∈ [0, n-1)` is negative,
the cutoff-search loop `for i in range(int(n))` still visits `i = n-1` and
there evaluates `rho(n)`, i.e. the variogram at lag `n`, whose divisor
`m*(n-t)` is zero — in the source a `ZeroDivisionError`, not a completed,
inconclusive diagnostic pass. -/
theorem C10_search_reaches_zero_divisor (psi : ℕ → ℕ → ℚ) (n m : ℕ) (hn : 0 < n)
    (hno : ∀ t, t < n - 1 → cutoffHit psi n m t = false) :
    n ∈ lagsEvaluated psi n m ∧ Vdenom n m n = 0 := by
  constructor
  · have hsplit : List.range n = List.range (n - 1) ++ [n - 1] := by
      conv_lhs => rw [show n = (n - 1) + 1 by omega]
      exact List.range_succ (n - 1)
    have hv : searchVisited psi n m = List.range (n - 1) ++ visitLoop psi n m [n - 1] := by
      rw [searchVisited, hsplit]
      exact visitLoop_append psi n m _ _ fun i hi => hno i (List.mem_range.mp hi)
    have hlast : n - 1 ∈ visitLoop psi n m [n - 1] := by
      by_cases hc : cutoffHit psi n m (n - 1) <;> simp [visitLoop, hc]
    have hmem : n - 1 ∈ searchVisited psi n m := by
      rw [hv]; exact List.mem_append_right _ hlast
    refine List.mem_flatMap.mpr ⟨n - 1, hmem, ?_⟩
    simp only [List.mem_cons, List.mem_singleton]
    omega
  · simp [Vdenom]

/-- Witness for C10 on the oscillating `psi10` ensemble (`n = 4`, `m = 2`):
all checks in `[0, 3)` are `0`, the loop visits `i = 3` and evaluates lag
`4`, where the variogram divisor `m*(n-t) = 2*(4-4)` is zero. -/
theorem C10_witness :
    0 < 4 ∧ (∀ t, t < 4 - 1 → cutoffHit psi10 4 2 t = false) ∧
    (4 ∈ lagsEvaluated psi10 4 2 ∧ Vdenom 4 2 4 = 0) := by
  have hno : ∀ t, t < 4 - 1 → cutoffHit psi10 4 2 t = false := by
    intro t ht
    interval_cases t
    · exact hit10_0
    · exact hit10_1
    · exact hit10_2
  exact ⟨by norm_num, hno, C10_search_reaches_zero_divisor psi10 4 2 (by norm_num) hno⟩

lemma blockStates_length {α : Type} (f : α → ℚ) (stepper : α → α) (us : ℕ → ℚ)
    (cnt : ℕ) : ∀ (x : α) (k : ℕ), (blockStates f stepper us x k cnt).length = cnt := by
  induction cnt with
  | zero => intro x k; rfl
  | succ c ih => intro x k; simp [blockStates, ih]

lemma recordAfter_length {α : Type} (f : α → ℚ) (stepper : α → α) (us : ℕ → ℚ)
    (seed : α) (step : ℕ) (z : ℕ) :
    (recordAfter f stepper us seed step z).length = step * z := by
  induction z with
  | zero => rfl
  | succ z ih =>
    simp [recordAfter, ih, blockStates_length]
    ring

lemma blockStates_getD_zero {α : Type} (f : α → ℚ) (stepper : α → α) (us : ℕ → ℚ)
    (x0 : α) (cnt : ℕ) (x : α) (k0 : ℕ) (h : 0 < cnt) :
    (blockStates f stepper us x k0 cnt).getD 0 x0 = (advance f stepper (us k0) x).1 := by
  match cnt, h with
  | c + 1, _ => simp [blockStates]

lemma blockStates_getD_succ {α : Type} (f : α → ℚ) (stepper : α → α) (us : ℕ → ℚ)
    (x0 : α) :
    ∀ (cnt : ℕ) (x : α) (k0 i : ℕ), i + 1 < cnt →
      (blockStates f stepper us x k0 cnt).getD (i + 1) x0 =
        (advance f stepper (us (k0 + i + 1))
          ((blockStates f stepper us x k0 cnt).getD i x0)).1 := by
  intro cnt
  induction cnt with
  | zero => intro x k0 i hi; omega
  | succ c ih =>
    intro x k0 i hi
    match i with
    | 0 =>
      have hc : 0 < c := by omega
      simp only [blockStates, List.getD_cons_succ, List.getD_cons_zero]
      rw [blockStates_getD_zero f stepper us x0 c _ (k0 + 1) hc]
    | j + 1 =>
      have hlt : j + 1 < c := by omega
      have h := ih ((advance f stepper (us k0) x).1) (k0 + 1) j hlt
      simp only [blockStates, List.getD_cons_succ]
      rw [h, show k0 + 1 + j + 1 = k0 + (j + 1) + 1 from by omega]

/-- Entry `k` of the record equals the corresponding entry of the block that
produced it, the block with base index `step * (k / step)` restarted at the
seed. -/
lemma recordAfter_getD_block {α : Type} (f : α → ℚ) (stepper : α → α) (us : ℕ → ℚ)
    (seed : α) (step : ℕ) (x0 : α) (hstep : 0 < step) :
    ∀ (z : ℕ) (k : ℕ), k < step * z →
      (recordAfter f stepper us seed step z).getD k x0 =
        (blockStates f stepper us seed (step * (k / step)) step).getD (k % step) x0 := by
  intro z
  induction z with
  | zero => intro k hk; omega
  | succ z ih =>
    intro k hk
    rcases Nat.lt_or_ge k (step * z) with hlt | hge
    · rw [recordAfter, List.getD_append _ _ _ _ (by rw [recordAfter_length]; exact hlt)]
      exact ih k hlt
    · have hr : k - step * z < step := by
        have h1 : step * (z + 1) = step * z + step := by ring
        omega
      have hkeq : k = (k - step * z) + step * z := by omega
      have hdiv : k / step = z := by
        conv_lhs => rw [hkeq]
        rw [Nat.add_mul_div_left _ _ hstep, Nat.div_eq_of_lt hr, Nat.zero_add]
      have hmod : k % step = k - step * z := by
        conv_lhs => rw [hkeq]
        rw [Nat.add_mul_mod_self_left, Nat.mod_eq_of_lt hr]
      rw [recordAfter, List.getD_append_right _ _ _ _ (by rw [recordAfter_length]; exact hge),
        recordAfter_length, hdiv, hmod]

/-- C2 counterexample: with `f = 1`, `stepper = (+1)`, all uniform draws `0`,
seed `0` and block size `2`, the record after two outer iterations is
`[1, 2, 1, 2]`: the state at index `2` (the first index of the second block)
is `1`, produced from the seed `x_start[i] = 0`, not the Metropolis advance
`3` of the previously recorded state `2`. -/
theorem C2_counterexample :
    ¬ recordFollowsAdvance cf c2stepper c2us 0 (recordAfter cf c2stepper c2us 0 2 2) := by
  have hrec : recordAfter cf c2stepper c2us (0 : ℚ) 2 2 = [1, 2, 1, 2] := by
    norm_num [recordAfter, blockStates, advance, cf, c2stepper, c2us]
  rw [hrec]
  intro h
  have h2 := h 2 (by norm_num) (by norm_num)
  norm_num [advance, cf, c2stepper, c2us] at h2

/-- C2 amended: within each appended block the states do follow consecutive
Metropolis advances and already-recorded indices are never altered, but each
block restarts from the seed `x_start[i]`: entry `k` with `k % step = 0` is
one advance from the seed, and entry `k` with `k % step ≠ 0` is one advance
from entry `k - 1`. -/
theorem C2_block_restart_structure {α : Type} (f : α → ℚ) (stepper : α → α)
    (us : ℕ → ℚ) (seed : α) (step : ℕ) (x0 : α) (z : ℕ) (hstep : 0 < step) :
    (∀ k < (recordAfter f stepper us seed step z).length, k % step = 0 →
        (recordAfter f stepper us seed step z).getD k x0 =
          (advance f stepper (us k) seed).1) ∧
    (∀ k < (recordAfter f stepper us seed step z).length, k % step ≠ 0 →
        (recordAfter f stepper us seed step z).getD k x0 =
          (advance f stepper (us k)
            ((recordAfter f stepper us seed step z).getD (k - 1) x0)).1) ∧
    (recordAfter f stepper us seed step (z + 1)).take
        (recordAfter f stepper us seed step z).length =
      recordAfter f stepper us seed step z := by
  refine ⟨?_, ?_, ?_⟩
  · intro k hk hk0
    rw [recordAfter_length] at hk
    rw [recordAfter_getD_block f stepper us seed step x0 hstep z k hk, hk0,
      blockStates_getD_zero f stepper us x0 step seed _ hstep,
      show step * (k / step) = k from Nat.mul_div_cancel' (Nat.dvd_of_mod_eq_zero hk0)]
  · intro k hk hk0
    rw [recordAfter_length] at hk
    obtain ⟨j, hj⟩ : ∃ j, k % step = j + 1 := ⟨k % step - 1, by
      have := Nat.pos_of_ne_zero hk0
      omega⟩
    have hrlt : j + 1 < step := hj ▸ Nat.mod_lt k hstep
    have hqr := Nat.div_add_mod k step
    have hk1 : 1 ≤ k := by omega
    have hk1eq : k - 1 = j + step * (k / step) := by omega
    have hdiv : (k - 1) / step = k / step := by
      rw [hk1eq, Nat.add_mul_div_left _ _ hstep, Nat.div_eq_of_lt (by omega)]
      omega
    have hmod : (k - 1) % step = j := by
      rw [hk1eq, Nat.add_mul_mod_self_left, Nat.mod_eq_of_lt (by omega)]
    rw [recordAfter_getD_block f stepper us seed step x0 hstep z k hk,
      recordAfter_getD_block f stepper us seed step x0 hstep z (k - 1) (by omega),
      hdiv, hmod, hj,
      blockStates_getD_succ f stepper us x0 step seed (step * (k / step)) j (by omega),
      show step * (k / step) + j + 1 = k from by omega]
  · rw [recordAfter]
    exact List.take_left _ _

/-- Witness for C2 amended at the C2 instance (`step = 2`, `z = 2`). -/
theorem C2_witness :
    0 < 2 ∧
    ((∀ k < (recordAfter cf c2stepper c2us (0 : ℚ) 2 2).length, k % 2 = 0 →
        (recordAfter cf c2stepper c2us (0 : ℚ) 2 2).getD k 0 =
          (advance cf c2stepper (c2us k) 0).1) ∧
    (∀ k < (recordAfter cf c2stepper c2us (0 : ℚ) 2 2).length, k % 2 ≠ 0 →
        (recordAfter cf c2stepper c2us (0 : ℚ) 2 2).getD k 0 =
          (advance cf c2stepper (c2us k)
            ((recordAfter cf c2stepper c2us (0 : ℚ) 2 2).getD (k - 1) 0)).1) ∧
    (recordAfter cf c2stepper c2us (0 : ℚ) 2 3).take
        (recordAfter cf c2stepper c2us (0 : ℚ) 2 2).length =
      recordAfter cf c2stepper c2us (0 : ℚ) 2 2) :=
  ⟨by norm_num, C2_block_restart_structure cf c2stepper c2us 0 2 0 2 (by norm_num)⟩

lemma advance_fst_id {α : Type} (f : α → ℚ) (u : ℚ) (x : α) :
    (advance f id u x).1 = x := by
  rw [advance]
  split <;> rfl

lemma blockStates_id {α : Type} (f : α → ℚ) (us : ℕ → ℚ) :
    ∀ (cnt : ℕ) (x : α) (k : ℕ), blockStates f id us x k cnt = List.replicate cnt x := by
  intro cnt
  induction cnt with
  | zero => intro x k; rfl
  | succ c ih =>
    intro x k
    simp only [blockStates, advance_fst_id, List.replicate_succ]
    rw [ih]

lemma recordAfter_id {α : Type} (f : α → ℚ) (us : ℕ → ℚ) (seed : α) (step : ℕ) :
    ∀ z, recordAfter f id us seed step z = List.replicate (step * z) seed := by
  intro z
  induction z with
  | zero => rfl
  | succ z ih =>
    rw [recordAfter, ih, blockStates_id, ← List.replicate_add, Nat.mul_succ]

lemma getD_replicate {α : Type} (c : α) (L k : ℕ) (d : α) (h : k < L) :
    (List.replicate L c).getD k d = c := by
  rw [List.getD_eq_getElem _ _ (by simpa using h)]
  simp

lemma V_timeConst (psi : ℕ → ℕ → ℚ) (n m : ℕ) (g : ℕ → ℚ)
    (h : ∀ i j, i < n → j < m → psi i j = g j) (t : ℕ) :
    V psi n m t = 0 := by
  rw [V]
  have hz : ∀ j ∈ Finset.range m,
      ∑ i ∈ Finset.range (n - t), (psi (t + i) j - psi i j) ^ 2 = 0 := by
    intro j hj
    apply Finset.sum_eq_zero
    intro i hi
    have hi' := Finset.mem_range.mp hi
    rw [h (t + i) j (by omega) (Finset.mem_range.mp hj),
      h i j (by omega) (Finset.mem_range.mp hj)]
    ring
  rw [Finset.sum_congr rfl hz]
  simp

lemma rho_timeConst (psi : ℕ → ℕ → ℚ) (n m : ℕ) (g : ℕ → ℚ)
    (h : ∀ i j, i < n → j < m → psi i j = g j) (t : ℕ) :
    rho psi n m t = 1 := by
  rw [rho, V_timeConst psi n m g h t]
  simp

lemma Vdenom_ne_zero (n m t : ℕ) (hm : 0 < m) (ht : t < n) : Vdenom n m t ≠ 0 := by
  rw [Vdenom]
  apply mul_ne_zero
  · exact Nat.cast_ne_zero.mpr (by omega)
  · have h : (t : ℚ) < (n : ℚ) := by exact_mod_cast ht
    exact sub_ne_zero_of_ne (ne_of_gt h)

lemma searchLoopE_no_hit (psi : ℕ → ℕ → ℚ) (n m : ℕ) (l₁ l₂ : List ℕ)
    (h : ∀ i ∈ l₁, checkE psi n m i = some false) :
    searchLoopE psi n m (l₁ ++ l₂) = searchLoopE psi n m l₂ := by
  induction l₁ with
  | nil => simp
  | cons a l ih =>
    have ha := h a (by simp)
    simp [searchLoopE, ha, ih fun i hi => h i (by simp [hi])]

/-- On a time-constant ensemble the cutoff search never completes: either
`var_dagger = 0` and the very first `rho` evaluation divides by zero, or all
checks equal `2`, no `break` fires, and the loop reaches `i = n-1`, where
`rho(n)` divides by the zero variogram denominator `m*(n-n)`. -/
lemma cutoffE_timeConst (psi : ℕ → ℕ → ℚ) (n m : ℕ) (g : ℕ → ℚ)
    (h : ∀ i j, i < n → j < m → psi i j = g j) (hn : 0 < n) (hm : 0 < m) :
    cutoffE psi n m = none := by
  rw [cutoffE]
  by_cases hv : var_dagger psi n m = 0
  · obtain ⟨n', rfl⟩ : ∃ n', n = n' + 1 := ⟨n - 1, by omega⟩
    rw [List.range_succ_eq_map]
    simp [searchLoopE, checkE, hv]
  · have hsplit : List.range n = List.range (n - 1) ++ [n - 1] := by
      conv_lhs => rw [show n = (n - 1) + 1 by omega]
      exact List.range_succ (n - 1)
    rw [hsplit, searchLoopE_no_hit]
    · have hz : Vdenom n m ((n - 1) + 1) = 0 := by
        rw [show (n - 1) + 1 = n from by omega]
        simp [Vdenom]
      simp [searchLoopE, checkE, hz]
    · intro i hi
      have hi' : i < n - 1 := List.mem_range.mp hi
      have hhit : cutoffHit psi n m i = false := by
        simp only [cutoffHit, rho_timeConst psi n m g h]
        norm_num
      rw [checkE, if_neg (by
        push_neg
        exact ⟨Vdenom_ne_zero n m i hm (by omega),
          Vdenom_ne_zero n m (i + 1) hm (by omega), hv⟩), hhit]

lemma c3psi_timeConst (z d : ℕ) :
    ∀ i j, i < 100 * (z + 1) → j < 10 →
      c3psi z d i j = coord d (x_start (if j < 5 then j else j - 5)) := by
  intro i j hi hj
  rw [c3psi, splitPsi]
  by_cases h5 : j < 5
  · rw [if_pos h5, c3records, recordAfter_id, List.map_replicate,
      getD_replicate _ _ _ _ (by omega), if_pos h5]
  · rw [if_neg h5, c3records, recordAfter_id, List.map_replicate,
      getD_replicate _ _ _ _ (by omega), if_neg h5]

/-- C3: the source has no `max_outer_iterations` parameter and no
`Failed(NonConvergence)` state — the signature is `run_mcmc(f, x_start,
stepper, n_eff_min, R_max, mcmc_step)` and the guard reads only
`n_effective`, `R` and `choice`, never an iteration count.  For the
configuration with the five seed states of the source and the degenerate
identity proposal, the guard is true at entry so the loop body runs, every
chain record is constant, no check of the dimension-0 cutoff search of the
first diagnostic pass is negative, and the search reaches the lag whose
variogram divisor is zero: the exception-aware search returns `none`
(`ZeroDivisionError`), so the run dies by uncaught exception inside outer
iteration 1 — it neither counts iterations against a cap nor transitions to
any Failed state. -/
theorem C3_no_cap_uncaught_exception :
    whileCond [0, 0] 120 [0, 0] (11 / 10) choice0 = true ∧
    cutoffE (c3psi 0 0) 100 10 = none := by
  constructor
  · have h0 : (0 : ℚ) < 120 := by norm_num
    simp [whileCond, h0]
  · exact cutoffE_timeConst _ _ _ _
      (fun i j hi hj => c3psi_timeConst 0 0 i j (by omega) hj)
      (by norm_num) (by norm_num)

lemma pySliceLen_eq (n s : ℕ) (hs : 0 < s) :
    pySliceLen n s = n / s + (if n % s = 0 then 0 else 1) := by
  rw [pySliceLen]
  have hqr := Nat.div_add_mod n s
  have hrlt := Nat.mod_lt n hs
  by_cases h : n % s = 0
  · rw [if_pos h]
    have hmul : s * (n / s) + (s - 1) = (s - 1) + s * (n / s) := by ring
    have hne : n + s - 1 = (s - 1) + s * (n / s) := by omega
    rw [hne, Nat.add_mul_div_left _ _ hs, Nat.div_eq_of_lt (by omega)]
    omega
  · rw [if_neg h]
    have hmul : s * (n / s + 1) = s * (n / s) + s := by ring
    have hne : n + s - 1 = (n % s - 1) + s * (n / s + 1) := by omega
    rw [hne, Nat.add_mul_div_left _ _ hs, Nat.div_eq_of_lt (by omega)]
    omega

lemma pyStride_eq_spec (s : ℕ) (hs : 0 < s) :
    ∀ n, pyStride n s = specThinIndices n s := by
  intro n
  induction n with
  | zero =>
    rw [pyStride, specThinIndices, pySliceLen,
      Nat.div_eq_of_lt (by omega)]
    rfl
  | succ n ih =>
    have hsucc : pySliceLen (n + 1) s = n / s + 1 := by
      rw [pySliceLen, show n + 1 + s - 1 = n + s from by omega, Nat.add_div_right _ hs]
    rw [specThinIndices, List.range_succ, List.filter_append]
    have hfil : (List.range n).filter (fun i => i % s == 0) = specThinIndices n s := rfl
    rw [hfil, ← ih]
    by_cases h : n % s = 0
    · have hlen : pySliceLen (n + 1) s = pySliceLen n s + 1 := by
        rw [hsucc, pySliceLen_eq n s hs, if_pos h]
      rw [pyStride, hlen, List.range_succ, List.map_append]
      have hmul : pySliceLen n s * s = n := by
        rw [pySliceLen_eq n s hs, if_pos h, Nat.add_zero,
          Nat.div_mul_cancel (Nat.dvd_of_mod_eq_zero h)]
      have hone : (List.filter (fun i => i % s == 0) [n]) = [n] := by
        simp [List.filter_singleton, h]
      rw [hone]
      congr 1
      simp [hmul]
    · have hlen : pySliceLen (n + 1) s = pySliceLen n s := by
        rw [hsucc, pySliceLen_eq n s hs, if_neg h]
      rw [pyStride, hlen, ← pyStride]
      have hnone : (List.filter (fun i => i % s == 0) [n]) = [] := by
        simp [List.filter_singleton, h]
      rw [hnone, List.append_nil]

lemma foldl_min_le_init (l : List ℚ) : ∀ a : ℚ, l.foldl min a ≤ a := by
  induction l with
  | nil => intro a; simp
  | cons x xs ih => intro a; exact le_trans (ih (min a x)) (min_le_left a x)

lemma foldl_min_le_mem (l : List ℚ) : ∀ (a x : ℚ), x ∈ l → l.foldl min a ≤ x := by
  induction l with
  | nil => intro a x hx; simp at hx
  | cons y ys ih =>
    intro a x hx
    rcases List.mem_cons.mp hx with h | h
    · subst h
      exact le_trans (foldl_min_le_init ys (min a x)) (min_le_right a x)
    · exact ih (min a y) x h

lemma foldl_min_mem (l : List ℚ) : ∀ a : ℚ, l.foldl min a = a ∨ l.foldl min a ∈ l := by
  induction l with
  | nil => intro a; exact Or.inl rfl
  | cons y ys ih =>
    intro a
    rw [List.foldl_cons]
    rcases ih (min a y) with h | h
    · rcases le_total a y with hay | hya
      · exact Or.inl (by rw [h, min_eq_left hay])
      · exact Or.inr (by rw [h, min_eq_right hya]; exact List.mem_cons_self y ys)
    · exact Or.inr (List.mem_cons_of_mem y h)

lemma amin_le (l : List ℚ) (x : ℚ) (hx : x ∈ l) : amin l ≤ x := by
  match l, hx with
  | y :: ys, hx =>
    rw [amin]
    rcases List.mem_cons.mp hx with h | h
    · exact h ▸ foldl_min_le_init ys y
    · exact foldl_min_le_mem ys y x h

lemma amin_mem (l : List ℚ) (hl : l ≠ []) : amin l ∈ l := by
  match l with
  | y :: ys =>
    rw [amin]
    rcases foldl_min_mem ys y with h | h
    · rw [h]
      exact List.mem_cons_self y ys
    · exact List.mem_cons_of_mem y h

lemma samples_skip_pos (n m : ℕ) (nEff : List ℚ) (hn : 0 < n) (hm : 0 < m)
    (hE : 0 < amin nEff) : 0 < samples_skip n m nEff := by
  rw [samples_skip]
  have hm' : (0 : ℚ) < (m : ℚ) := by exact_mod_cast hm
  have hn' : (0 : ℚ) < (n : ℚ) := by exact_mod_cast hn
  have hpos : (0 : ℚ) < (m : ℚ) * (n : ℚ) / amin nEff := div_pos (mul_pos hm' hn') hE
  have hc := Int.ceil_pos.mpr hpos
  omega

lemma samples_final_len_eq (n s : ℕ) (hs : 0 < s) :
    samples_final_len n s = pySliceLen n s := by
  rw [samples_final_len]
  by_cases h : s ∣ n
  · rw [if_pos h, pySliceLen_eq n s hs, if_pos (Nat.dvd_iff_mod_eq_zero.mp h),
      Nat.add_zero]
  · rw [if_neg h]

lemma samples_length {α : Type} (xres : ℕ → ℕ → α) (n s m : ℕ) :
    (samples xres n s m).length = m * pySliceLen n s := by
  rw [samples, List.flatMap_def, List.length_flatten, List.map_map]
  have hfun : (List.length ∘ fun j => samples_final xres n s j) =
      fun _ : ℕ => pySliceLen n s := by
    funext j
    simp [Function.comp, samples_final, pyStride]
  rw [hfun, List.map_const', List.length_range, List.sum_replicate, smul_eq_mul]

/-- C8: on convergence, `n_effective_final = np.amin(n_effective)` is the
minimum ESS over dimensions, the thinning stride is
`samples_skip = ceil(m*n / n_effective_final) ≥ 1`, the preallocated row
count of `samples_final` agrees with the slice length `ceil(n/s)`, the flat
`samples` array is exactly the spec IndependentSampleSet (the multiples of
`s` strictly below `n` from each chain, concatenated in chain order), and its
total length is `m * ceil(n/s)`. -/
theorem C8_extraction {α : Type} (xres : ℕ → ℕ → α) (nEff : List ℚ) (n m : ℕ)
    (hne : nEff ≠ []) (hE : 0 < amin nEff) (hn : 0 < n) (hm : 0 < m) :
    (amin nEff ∈ nEff ∧ ∀ x ∈ nEff, amin nEff ≤ x) ∧
    0 < samples_skip n m nEff ∧
    samples_final_len n (samples_skip n m nEff) = pySliceLen n (samples_skip n m nEff) ∧
    samples xres n (samples_skip n m nEff) m =
      specSampleSet xres n (samples_skip n m nEff) m ∧
    (samples xres n (samples_skip n m nEff) m).length =
      m * pySliceLen n (samples_skip n m nEff) := by
  have hs := samples_skip_pos n m nEff hn hm hE
  refine ⟨⟨amin_mem nEff hne, fun x hx => amin_le nEff x hx⟩, hs,
    samples_final_len_eq _ _ hs, ?_, samples_length xres n _ m⟩
  rw [samples, specSampleSet]
  congr 1
  funext j
  rw [samples_final, pyStride_eq_spec _ hs n]

/-- Witness for C8 with `n_effective = [4]`, `n = 5`, `m = 2`: the stride is
`ceil(10/4) = 3`, each chain contributes indices `{0, 3}` and the flat set
has `2 * 2 = 4` entries. -/
theorem C8_witness :
    (([4] : List ℚ) ≠ [] ∧ 0 < amin [4] ∧ 0 < 5 ∧ 0 < 2) ∧
    ((amin [4] ∈ ([4] : List ℚ) ∧ ∀ x ∈ ([4] : List ℚ), amin [4] ≤ x) ∧
    0 < samples_skip 5 2 [4] ∧
    samples_final_len 5 (samples_skip 5 2 [4]) = pySliceLen 5 (samples_skip 5 2 [4]) ∧
    samples (fun r j => (r, j)) 5 (samples_skip 5 2 [4]) 2 =
      specSampleSet (fun r j => (r, j)) 5 (samples_skip 5 2 [4]) 2 ∧
    (samples (fun r j => (r, j)) 5 (samples_skip 5 2 [4]) 2).length =
      2 * pySliceLen 5 (samples_skip 5 2 [4])) :=
  ⟨⟨by simp, by norm_num [amin], by norm_num, by norm_num⟩,
    C8_extraction (fun r j => (r, j)) [4] 5 2 (by simp) (by norm_num [amin])
      (by norm_num) (by norm_num)⟩

end MCMCStop
